import Mathlib

/-!
Shallow embedding of `ga.cpp`, a genetic-algorithm heuristic for the
Euclidean travelling salesman problem, together with proofs of the
specification claims about it.

Modelling conventions:
* C++ `unsigned int` arithmetic is modelled on `ℕ` with explicit
  reduction modulo `2 ^ 32` wherever the source can overflow or wrap.
* C++ `double` arithmetic is modelled exactly: distances and cached tour
  lengths live in an arbitrary linearly ordered additive commutative
  monoid `R`; the program instance takes `R = ℝ` with the exact
  Euclidean distance (`Real.sqrt` applied to the wrapped squared
  distance the source computes in unsigned arithmetic).  The
  probability comparison inside `mutate` is modelled exactly in `ℚ`
  (`(double)rand() / RAND_MAX` is a rational value).
* The C library random stream (`rand()`) is modelled as an explicit
  infinite stream of naturals plus a cursor; `rand` reduces the current
  stream element modulo `RANDMAX + 1` and advances the cursor.
* Loops of the source whose termination is not structural receive
  explicit fuel.  Where the source loop provably performs a bounded
  number of iterations, the wrapper passes enough fuel to reproduce the
  source behaviour exactly; the one genuinely unbounded retry loop
  (inside `mutate`) surfaces as an `Option`.
* Out-of-bounds vector reads, which are undefined behaviour in the
  source, are modelled by `List.getD` with a default value; claim C10
  shows the reads in the crossover are unreachable under the program's
  tour invariants.
-/

namespace GA

/-- The value of `RAND_MAX` of the modelled C library (glibc). -/
def RANDMAX : ℕ := 2147483647

/-- Explicit model of the process-wide `rand()` stream. -/
structure Rng where
  stream : ℕ → ℕ
  pos : ℕ
deriving Inhabited

/-- One call to `rand()`: a value in `[0, RANDMAX]` plus the advanced stream. -/
def rand (g : Rng) : ℕ × Rng :=
  (g.stream g.pos % (RANDMAX + 1), ⟨g.stream, g.pos + 1⟩)

/-- Source `randomIndex(a, b)`: `(rand() % (b - a)) + a`.  All call sites in
the program have `a ≤ b`; `b - a` is truncated subtraction here, and `x % 0`
(division by zero, undefined behaviour in C++) is `x` in Lean. -/
def randomIndex (a b : ℕ) (g : Rng) : ℕ × Rng :=
  let r := rand g
  (r.1 % (b - a) + a, r.2)

/-- Source `randomDouble(a, b)`: `(double)rand() / RAND_MAX * (b - a) + a`,
modelled exactly in `ℚ`. -/
def randomDouble (a b : ℚ) (g : Rng) : ℚ × Rng :=
  let r := rand g
  ((r.1 : ℚ) / (RANDMAX : ℚ) * (b - a) + a, r.2)

/-- A city: an ordered pair of unsigned integers. -/
structure City where
  x : ℕ
  y : ℕ
deriving DecidableEq

/-- Reduction modulo `2 ^ 32`, the behaviour of C++ `unsigned int`. -/
def u32 (n : ℕ) : ℕ := n % 2 ^ 32

/-- Difference `a - b` in C++ `unsigned int` arithmetic (wraps around). -/
def usub (a b : ℕ) : ℕ := u32 (a + (2 ^ 32 - u32 b))

/-- The random `City(width, height)` constructor:
`x = rand() % width; y = rand() % height`. -/
def City.random (width height : ℕ) (g : Rng) : City × Rng :=
  let rx := rand g
  let ry := rand rx.2
  (⟨rx.1 % width, ry.1 % height⟩, ry.2)

/-- The squared Euclidean distance as the source computes it, namely
`(a.x-b.x)*(a.x-b.x) + (a.y-b.y)*(a.y-b.y)` in `unsigned` arithmetic. -/
def dist2 (a b : City) : ℕ :=
  u32 (u32 (usub a.x b.x * usub a.x b.x) + u32 (usub a.y b.y * usub a.y b.y))

/-- Source `distanceBetweenCities`: `sqrt` of the unsigned squared distance,
with `double` arithmetic modelled exactly in `ℝ`. -/
noncomputable def distanceBetweenCities (a b : City) : ℝ :=
  Real.sqrt (dist2 a b)

/-- A map: a list of cities plus the bounding box they were drawn from. -/
structure Map where
  width : ℕ
  height : ℕ
  cities : List City

/-- The number of cities (`Map` inherits `size()` from `vector<City>`). -/
def Map.size (m : Map) : ℕ := m.cities.length

/-- Source `Map::distance(i, j)`, parametrised by the city-distance function.
An out-of-bounds index (undefined behaviour in the source) reads a default
city. -/
def Map.distance {R : Type} (dist : City → City → R) (m : Map) (i j : ℕ) : R :=
  dist (m.cities.getD i ⟨0, 0⟩) (m.cities.getD j ⟨0, 0⟩)

/-- The rejection-sampling loop of the `Map` constructor: keep drawing random
cities, adding a draw when it is not yet present, until `n` cities are
collected.  The source loop has no bound, so the model takes fuel and returns
`none` when the loop is still running after `fuel` iterations. -/
def mapBuild (w h n : ℕ) : List City → Rng → ℕ → Option (List City × Rng)
  | _, _, 0 => none
  | cities, g, fuel + 1 =>
    if cities.length < n then
      let c := City.random w h g
      if c.1 ∈ cities then mapBuild w h n cities c.2 fuel
      else mapBuild w h n (cities ++ [c.1]) c.2 fuel
    else some (cities, g)

section Core

variable {R : Type} [LinearOrderedAddCommMonoid R]

/-- Sum of the distances between adjacent itinerary entries (the `for` loop
of `lengthOfItinerary`). -/
def adjSum (md : ℕ → ℕ → R) : List ℕ → R
  | [] => 0
  | [_] => 0
  | x :: y :: rest => md x y + adjSum md (y :: rest)

/-- Source `lengthOfItinerary`: the wrap-around edge `d(it[0], it.back())`
plus the sum over adjacent pairs.  `double` addition is modelled as exact
addition in `R`. -/
def lengthOfItinerary (dist : City → City → R) (it : List ℕ) (m : Map) : R :=
  Map.distance dist m (it.headD 0) (it.getLastD 0) + adjSum (Map.distance dist m) it

/-- A tour: an itinerary together with its cached length (`_length`). -/
structure Tour (R : Type) where
  itinerary : List ℕ
  length : R

/-- Source `Tour(itinerary, map)`: record the itinerary and cache its
length. -/
def Tour.ofItinerary (dist : City → City → R) (it : List ℕ) (m : Map) : Tour R :=
  ⟨it, lengthOfItinerary dist it m⟩

/-- A default tour, used only as the (never inspected) default of indexed
reads. -/
def tourDefault : Tour R := ⟨[], 0⟩

/-- Swap of the entries at positions `i` and `j`, the effect of
`swap(v[i], v[j])`; out-of-bounds positions (undefined behaviour in the
source) leave the list unchanged. -/
def listSwap {α : Type} (l : List α) (i j : ℕ) : List α :=
  if h : i < l.length ∧ j < l.length then
    (l.set i (l.get ⟨j, h.2⟩)).set j (l.get ⟨i, h.1⟩)
  else l

/-- The loop body sequence of `std::random_shuffle(first, last)` in the
classic libstdc++ implementation: for `i = 1, …, n-1` swap position `i` with
position `rand() % (i + 1)`.  The fuel always equals `l.length - i` at every
call, so the structural recursion reproduces the source loop exactly. -/
def shuffleGo {α : Type} : ℕ → List α → ℕ → Rng → List α × Rng
  | 0, l, _, g => (l, g)
  | fuel + 1, l, i, g =>
    if i < l.length then
      let r := rand g
      shuffleGo fuel (listSwap l i (r.1 % (i + 1))) (i + 1) r.2
    else (l, g)

/-- Source `random_shuffle` over a whole list. -/
def randomShuffle {α : Type} (l : List α) (g : Rng) : List α × Rng :=
  shuffleGo l.length l 1 g

/-- The random `Tour(map)` constructor: the identity itinerary
`0, 1, …, n-1`, shuffled from position `1` on, with the length cached
afterwards. -/
def Tour.random (dist : City → City → R) (m : Map) (g : Rng) : Tour R × Rng :=
  match List.range m.size with
  | [] => (Tour.ofItinerary dist [] m, g)
  | x :: rest =>
    let s := randomShuffle rest g
    (Tour.ofItinerary dist (x :: s.1) m, s.2)

/-- Reversal of the closed range of positions `[i, j]`, the effect of
`reverse(begin() + i, begin() + j + 1)`. -/
def listReverse (it : List ℕ) (i j : ℕ) : List ℕ :=
  it.take i ++ ((it.drop i).take (j + 1 - i)).reverse ++ it.drop (j + 1)

/-- Rotation of the closed range of positions `[i, j]` bringing position `k`
to the front, the effect of `rotate(begin() + i, begin() + k, begin() + j + 1)`. -/
def listRotate (it : List ℕ) (i k j : ℕ) : List ℕ :=
  it.take i ++ ((it.drop i).take (j + 1 - i)).drop (k - i)
    ++ ((it.drop i).take (j + 1 - i)).take (k - i) ++ it.drop (j + 1)

/-- The kind-retry loop of `Tour::mutate`: draw `rand() % 3`; kinds `0`
(swap) and `1` (reverse) always apply; kind `2` (rotate) applies only when
`j - i > 2`, otherwise the kind is redrawn.  The source loop is unbounded
when `j - i ≤ 2` (it terminates only when the stream yields a draw that is
not `2`), hence the fuel and `Option`. -/
def mutateLoop (it : List ℕ) (i j : ℕ) : Rng → ℕ → Option (ℕ × List ℕ × Rng)
  | _, 0 => none
  | g, fuel + 1 =>
    let r := rand g
    if r.1 % 3 = 0 then some (0, listSwap it i j, r.2)
    else if r.1 % 3 = 1 then some (1, listReverse it i j, r.2)
    else if 2 < j - i then
      let k := randomIndex (i + 1) j r.2
      some (2, listRotate it i k.1 j, k.2)
    else mutateLoop it i j r.2 fuel

/-- Source `Tour::mutate(p, map)`: with the random draw `randomDouble(0,1)`
strictly above `p`, do nothing and return `-1`; otherwise draw positions
`1 ≤ i < j < size` and perform exactly one mutation, then recompute the
cached length.  Returns the mutation kind performed. -/
def Tour.mutate (dist : City → City → R) (t : Tour R) (p : ℚ) (m : Map) (g : Rng)
    (fuel : ℕ) : Option (ℤ × Tour R × Rng) :=
  let d := randomDouble 0 1 g
  if p < d.1 then some (-1, t, d.2)
  else
    let ri := randomIndex 1 (t.itinerary.length - 1) d.2
    let rj := randomIndex (ri.1 + 1) t.itinerary.length ri.2
    match mutateLoop t.itinerary ri.1 rj.1 rj.2 fuel with
    | none => none
    | some (mkind, it2, g2) => some ((mkind : ℤ), Tour.ofItinerary dist it2 m, g2)

/-- The cursor-advance scan of `sex`: starting from `i`, skip the positions
of `par` whose entry is already in `child`.  The fuel equals
`par.length - i`, so the scan stops when the cursor reaches the end of the
parent (the source would read out of bounds there; claim C10 shows this is
unreachable under the tour invariants). -/
def nextFreeGo (child par : List ℕ) : ℕ → ℕ → ℕ
  | 0, i => i
  | fuel + 1, i => if par.getD i 0 ∈ child then nextFreeGo child par fuel (i + 1) else i

/-- The cursor position reached by the scan of `sex` starting from `i`. -/
def nextFree (child par : List ℕ) (i : ℕ) : ℕ :=
  nextFreeGo child par (par.length - i) i

/-- The main loop of `sex`: while the child is shorter than the map, advance
both cursors past used cities, then append the candidate from the exhausted
side, or else the nearer of the two candidates (ties go to parent `b`).
Each iteration appends exactly one entry, so the fuel `msize` passed by
`sex` is enough for the loop to reach `msize` entries exactly as the source
`while` loop does. -/
def sexGo (md : ℕ → ℕ → R) (msize : ℕ) (a b : List ℕ) : List ℕ → ℕ → ℕ → ℕ → List ℕ
  | child, _, _, 0 => child
  | child, i, j, fuel + 1 =>
    if child.length < msize then
      let i2 := nextFree child a i
      let j2 := nextFree child b j
      if i2 = a.length then sexGo md msize a b (child ++ [b.getD j2 0]) i2 (j2 + 1) fuel
      else if j2 = b.length then sexGo md msize a b (child ++ [a.getD i2 0]) (i2 + 1) j2 fuel
      else if md (child.getLastD 0) (a.getD i2 0) < md (child.getLastD 0) (b.getD j2 0) then
        sexGo md msize a b (child ++ [a.getD i2 0]) (i2 + 1) j2 fuel
      else sexGo md msize a b (child ++ [b.getD j2 0]) i2 (j2 + 1) fuel
    else child

/-- Source `sex(a, b, map)`: the greedy nearest-city crossover, seeded with
city `0` and both cursors at `1`, returning the tour built on the merged
itinerary. -/
def sex (dist : City → City → R) (a b : Tour R) (m : Map) : Tour R :=
  Tour.ofItinerary dist
    (sexGo (Map.distance dist m) m.size a.itinerary b.itinerary [0] 1 1 m.size) m

/-- Variant of `sexGo` that fails (`none`) instead of taking a
parent-exhausted branch or reading a parent out of bounds.  Claim C10 states
that under the tour invariants it agrees with `sexGo`. -/
def sexGoChecked (md : ℕ → ℕ → R) (msize : ℕ) (a b : List ℕ) :
    List ℕ → ℕ → ℕ → ℕ → Option (List ℕ)
  | child, _, _, 0 => some child
  | child, i, j, fuel + 1 =>
    if child.length < msize then
      let i2 := nextFree child a i
      let j2 := nextFree child b j
      if i2 < a.length ∧ j2 < b.length then
        if md (child.getLastD 0) (a.getD i2 0) < md (child.getLastD 0) (b.getD j2 0) then
          sexGoChecked md msize a b (child ++ [a.getD i2 0]) (i2 + 1) j2 fuel
        else sexGoChecked md msize a b (child ++ [b.getD j2 0]) i2 (j2 + 1) fuel
      else none
    else some child

/-- The fold of `std::max_element` over the remaining list `l`, carrying the
index and value of the current best.  With the program's `operator<`
(`a < b ↔ a.length() > b.length()`), the current best is replaced exactly
when the visited tour is strictly shorter. -/
def maxElemIdxAux : List (Tour R) → ℕ → Tour R → ℕ → ℕ × Tour R
  | [], bi, b, _ => (bi, b)
  | y :: ys, bi, b, i =>
    if y.length < b.length then maxElemIdxAux ys i y (i + 1)
    else maxElemIdxAux ys bi b (i + 1)

/-- Index and value of the first minimal-length tour of a list, the result of
`max_element` under the program's `operator<`; `none` on an empty range
(where the source would dereference the end iterator). -/
def maxElemIdx : List (Tour R) → Option (ℕ × Tour R)
  | [] => none
  | x :: xs => some (maxElemIdxAux xs 0 x 1)

/-- Source `Population::fittest()`: `max_element` over the whole tour list. -/
def fittest (tours : List (Tour R)) : Option (Tour R) :=
  (maxElemIdx tours).map (fun r => r.2)

/-- Source `Population::findParent(depth)`: shuffle the tour list in place,
then take `max_element` of the first `depth` entries.  The result records the
index the returned reference denotes, the tour value it denotes at that
moment, the shuffled list, and the advanced stream. -/
def findParent (tours : List (Tour R)) (depth : ℕ) (g : Rng) :
    Option (ℕ × Tour R × List (Tour R) × Rng) :=
  let s := randomShuffle tours g
  match maxElemIdx (s.1.take depth) with
  | none => none
  | some (idx, t) => some (idx, t, s.1, s.2)

/-- A population: a map plus the current list of tours. -/
structure Population (R : Type) where
  map : Map
  tours : List (Tour R)

/-- The child-generation loop of `evolve`, generating `cnt` children.  Each
iteration calls `findParent` twice; the two returned references are resolved
against the tour list as it stands after the second call's in-place shuffle
(`ts2`), exactly as the C++ references are.  `children.size() < tours.size()`
holds for exactly `tours.length - 1` iterations, the `cnt` passed by
`evolve`. -/
def genChildren (dist : City → City → R) (m : Map) (depth : ℕ) :
    ℕ → List (Tour R) → List (Tour R) → Rng → Option (List (Tour R) × Rng)
  | 0, _, children, g => some (children, g)
  | cnt + 1, tours, children, g =>
    match findParent tours depth g with
    | none => none
    | some (iA, _, ts1, g1) =>
      match findParent ts1 depth g1 with
      | none => none
      | some (iB, _, ts2, g2) =>
        let a := ts2.getD iA tourDefault
        let b := ts2.getD iB tourDefault
        let child := if a.itinerary ≠ b.itinerary then sex dist a b m else a
        genChildren dist m depth cnt ts2 (children ++ [child]) g2

/-- The mutation loop of `evolve` applied to the tours at positions `1` and
up (the elite head is exempt), threading the random stream left to right. -/
def mutateList (dist : City → City → R) (m : Map) (p : ℚ) (fuel : ℕ) :
    List (Tour R) → Rng → Option (List (Tour R) × Rng)
  | [], g => some ([], g)
  | t :: ts, g =>
    match Tour.mutate dist t p m g fuel with
    | none => none
    | some (_, t2, g2) =>
      match mutateList dist m p fuel ts g2 with
      | none => none
      | some (ts2, g3) => some (t2 :: ts2, g3)

/-- Source `Population::evolve(p_mutate, depth)`: copy the fittest tour as
the elite head, generate children by tournament selection and crossover until
the new generation has the old size, mutate every non-elite child, and
replace the tour list. -/
def evolve (dist : City → City → R) (pop : Population R) (p : ℚ) (depth : ℕ)
    (g : Rng) (fuel : ℕ) : Option (Population R × Rng) :=
  match fittest pop.tours with
  | none => none
  | some best =>
    match genChildren dist pop.map depth (pop.tours.length - 1) pop.tours [best] g with
    | none => none
    | some (children, g1) =>
      match children with
      | [] => none
      | c0 :: rest =>
        match mutateList dist pop.map p fuel rest g1 with
        | none => none
        | some (rest2, g2) => some (⟨pop.map, c0 :: rest2⟩, g2)

end Core

/-- The length-cache invariant of the spec: the cached `_length` of a tour
equals the closed-cycle length recomputed from its current itinerary. -/
def cacheOK {R : Type} [LinearOrderedAddCommMonoid R] (dist : City → City → R)
    (t : Tour R) (m : Map) : Prop :=
  t.length = lengthOfItinerary dist t.itinerary m

/-- The loop invariant of the crossover `sex` over a map of `n` cities:
the child is nonempty, duplicate-free and within `0..n-1`, both cursors are
inside their parents, and every parent position strictly below its cursor
holds a city already present in the child. -/
def sexInv (n : ℕ) (a b child : List ℕ) (i j : ℕ) : Prop :=
  child ≠ [] ∧ child.Nodup ∧ (∀ x ∈ child, x < n) ∧
    i ≤ a.length ∧ j ≤ b.length ∧
    (∀ k, k < i → a.getD k 0 ∈ child) ∧
    (∀ k, k < j → b.getD k 0 ∈ child)

section ConcreteData

/-- A one-city map used by concrete witnesses. -/
def map1 : Map := ⟨1, 1, [⟨0, 0⟩]⟩

/-- The single tour over `map1`. -/
noncomputable def tour1 : Tour ℝ := Tour.ofItinerary distanceBetweenCities [0] map1

/-- A one-tour population over `map1`. -/
noncomputable def pop1 : Population ℝ := ⟨map1, [tour1]⟩

/-- The all-zero random stream. -/
def rng0 : Rng := ⟨fun _ => 0, 0⟩

/-- The all-one random stream. -/
def rng1 : Rng := ⟨fun _ => 1, 0⟩

/-- A three-city collinear map used by concrete counterexamples. -/
def map3 : Map := ⟨3, 1, [⟨0, 0⟩, ⟨1, 0⟩, ⟨2, 0⟩]⟩

/-- The tour `0, 1, 2` over `map3`. -/
noncomputable def tourA : Tour ℝ := Tour.ofItinerary distanceBetweenCities [0, 1, 2] map3

/-- The tour `0, 2, 1` over `map3`. -/
noncomputable def tourB : Tour ℝ := Tour.ofItinerary distanceBetweenCities [0, 2, 1] map3

/-- A four-city unit-square map used by concrete witnesses: city `0` at
`(0,0)`, city `1` at `(1,0)`, city `2` at `(0,1)`, city `3` at `(1,1)`. -/
def map4 : Map := ⟨2, 2, [⟨0, 0⟩, ⟨1, 0⟩, ⟨0, 1⟩, ⟨1, 1⟩]⟩

/-- The identity tour over `map4`. -/
noncomputable def tourC : Tour ℝ := Tour.ofItinerary distanceBetweenCities [0, 1, 2, 3] map4

/-- The tour `0, 1, 3, 2` over `map4`. -/
noncomputable def tourD : Tour ℝ := Tour.ofItinerary distanceBetweenCities [0, 1, 3, 2] map4

/-- The tour `0, 2, 3, 1` over `map4`. -/
noncomputable def tourE : Tour ℝ := Tour.ofItinerary distanceBetweenCities [0, 2, 3, 1] map4

end ConcreteData

section BasicLemmas

variable {R : Type} [LinearOrderedAddCommMonoid R]

/-- Moving the entry at position `j` to the front while writing `x` at
position `j` permutes the list with `x` consed on. -/
theorem get_cons_set_perm {α : Type} :
    ∀ (l : List α) (j : ℕ) (hj : j < l.length) (x : α),
      List.Perm (l.get ⟨j, hj⟩ :: l.set j x) (x :: l) := by
  intro l
  induction l with
  | nil => intro j hj x; simp at hj
  | cons y t ih =>
    intro j hj x
    cases j with
    | zero => simpa using List.Perm.swap x y t
    | succ j =>
      have hj2 : j < t.length := by simpa using hj
      exact ((List.Perm.swap y (t.get ⟨j, hj2⟩) (t.set j x)).trans
        ((ih j hj2 x).cons y)).trans (List.Perm.swap x y t)

/-- Swapping two in-bounds positions permutes the list. -/
theorem set_set_perm {α : Type} :
    ∀ (l : List α) (i j : ℕ) (hi : i < l.length) (hj : j < l.length),
      List.Perm ((l.set i (l.get ⟨j, hj⟩)).set j (l.get ⟨i, hi⟩)) l := by
  intro l
  induction l with
  | nil => intro i j hi _; simp at hi
  | cons y t ih =>
    intro i j hi hj
    cases i with
    | zero =>
      cases j with
      | zero => simp
      | succ j =>
        have hj2 : j < t.length := by simpa using hj
        simpa using get_cons_set_perm t j hj2 y
    | succ i =>
      have hi2 : i < t.length := by simpa using hi
      cases j with
      | zero =>
        simpa using get_cons_set_perm t i hi2 y
      | succ j =>
        have hj2 : j < t.length := by simpa using hj
        simpa using (ih i j hi2 hj2).cons y

/-- `listSwap` permutes the list. -/
theorem listSwap_perm {α : Type} (l : List α) (i j : ℕ) : List.Perm (listSwap l i j) l := by
  unfold listSwap
  split
  · next h => exact set_set_perm l i j h.1 h.2
  · exact List.Perm.refl l

/-- The shuffle loop permutes the list. -/
theorem shuffleGo_perm {α : Type} :
    ∀ (fuel : ℕ) (l : List α) (i : ℕ) (g : Rng), List.Perm (shuffleGo fuel l i g).1 l := by
  intro fuel
  induction fuel with
  | zero => intro l i g; exact List.Perm.refl l
  | succ fuel ih =>
    intro l i g
    unfold shuffleGo
    split
    · exact ((ih _ _ _).trans (listSwap_perm l i _))
    · exact List.Perm.refl l

/-- `randomShuffle` permutes the list. -/
theorem randomShuffle_perm {α : Type} (l : List α) (g : Rng) :
    List.Perm (randomShuffle l g).1 l :=
  shuffleGo_perm l.length l 1 g

/-- The scan cursor never moves backwards. -/
theorem nextFreeGo_ge (child par : List ℕ) :
    ∀ (fuel i : ℕ), i ≤ nextFreeGo child par fuel i := by
  intro fuel
  induction fuel with
  | zero => intro i; exact Nat.le_refl i
  | succ fuel ih =>
    intro i
    unfold nextFreeGo
    split
    · exact Nat.le_trans (Nat.le_succ i) (ih (i + 1))
    · exact Nat.le_refl i

/-- The scan advances by at most the fuel. -/
theorem nextFreeGo_le (child par : List ℕ) :
    ∀ (fuel i : ℕ), nextFreeGo child par fuel i ≤ i + fuel := by
  intro fuel
  induction fuel with
  | zero => intro i; exact Nat.le_refl i
  | succ fuel ih =>
    intro i
    unfold nextFreeGo
    split
    · exact Nat.le_trans (ih (i + 1)) (by omega)
    · omega

/-- All positions the scan skipped hold entries already in the child. -/
theorem nextFreeGo_skipped (child par : List ℕ) :
    ∀ (fuel i k : ℕ), i ≤ k → k < nextFreeGo child par fuel i →
      par.getD k 0 ∈ child := by
  intro fuel
  induction fuel with
  | zero =>
    intro i k hik hk
    unfold nextFreeGo at hk
    omega
  | succ fuel ih =>
    intro i k hik hk
    unfold nextFreeGo at hk
    by_cases hmem : par.getD i 0 ∈ child
    · rw [if_pos hmem] at hk
      rcases Nat.eq_or_lt_of_le hik with rfl | hlt
      · exact hmem
      · exact ih (i + 1) k hlt hk
    · rw [if_neg hmem] at hk
      omega

/-- When the scan stops strictly before exhausting its fuel, it stops on an
entry not yet in the child. -/
theorem nextFreeGo_stop (child par : List ℕ) :
    ∀ (fuel i : ℕ), nextFreeGo child par fuel i < i + fuel →
      par.getD (nextFreeGo child par fuel i) 0 ∉ child := by
  intro fuel
  induction fuel with
  | zero =>
    intro i h
    unfold nextFreeGo at h
    omega
  | succ fuel ih =>
    intro i h
    unfold nextFreeGo at h ⊢
    by_cases hmem : par.getD i 0 ∈ child
    · rw [if_pos hmem] at h ⊢
      exact ih (i + 1) (by omega)
    · rw [if_neg hmem] at h ⊢
      exact hmem

/-- The scan stops no later than the first free position. -/
theorem nextFreeGo_le_of_missing (child par : List ℕ) :
    ∀ (fuel i k : ℕ), i ≤ k → k < i + fuel → par.getD k 0 ∉ child →
      nextFreeGo child par fuel i ≤ k := by
  intro fuel
  induction fuel with
  | zero => intro i k hik hk _; omega
  | succ fuel ih =>
    intro i k hik hk hmiss
    unfold nextFreeGo
    by_cases hmem : par.getD i 0 ∈ child
    · rw [if_pos hmem]
      rcases Nat.eq_or_lt_of_le hik with rfl | hlt
      · exact absurd hmem hmiss
      · exact ih (i + 1) k hlt (by omega) hmiss
    · rw [if_neg hmem]
      exact hik

/-- The cursor the crossover scan returns is at least the start cursor. -/
theorem nextFree_ge (child par : List ℕ) (i : ℕ) : i ≤ nextFree child par i :=
  nextFreeGo_ge child par _ i

/-- The cursor the crossover scan returns never passes the parent's end when
it starts inside the parent. -/
theorem nextFree_le (child par : List ℕ) (i : ℕ) (h : i ≤ par.length) :
    nextFree child par i ≤ par.length := by
  have := nextFreeGo_le child par (par.length - i) i
  unfold nextFree
  omega

/-- Positions skipped by the crossover scan hold entries already in the
child. -/
theorem nextFree_skipped (child par : List ℕ) (i k : ℕ) (hik : i ≤ k)
    (hk : k < nextFree child par i) : par.getD k 0 ∈ child :=
  nextFreeGo_skipped child par _ i k hik hk

/-- When the crossover scan stops strictly inside the parent, it stops on an
entry not yet in the child. -/
theorem nextFree_stop (child par : List ℕ) (i : ℕ)
    (h : nextFree child par i < par.length) :
    par.getD (nextFree child par i) 0 ∉ child := by
  have hge : i ≤ nextFree child par i := nextFree_ge child par i
  have hi : i ≤ par.length := by omega
  have heq : i + (par.length - i) = par.length := by omega
  exact nextFreeGo_stop child par (par.length - i) i (by unfold nextFree at h; omega)

/-- The crossover scan stops no later than any free position of the parent. -/
theorem nextFree_le_of_missing (child par : List ℕ) (i k : ℕ) (hik : i ≤ k)
    (hk : k < par.length) (hmiss : par.getD k 0 ∉ child) :
    nextFree child par i ≤ k := by
  have : k < i + (par.length - i) := by omega
  exact nextFreeGo_le_of_missing child par (par.length - i) i k hik this hmiss

/-- The running best of the `max_element` fold is no longer than the initial
best and no longer than every visited tour. -/
theorem maxAux_le :
    ∀ (l : List (Tour R)) (bi : ℕ) (b : Tour R) (i : ℕ),
      (maxElemIdxAux l bi b i).2.length ≤ b.length ∧
        ∀ y ∈ l, (maxElemIdxAux l bi b i).2.length ≤ y.length := by
  intro l
  induction l with
  | nil => intro bi b i; exact ⟨le_refl _, by simp⟩
  | cons y ys ih =>
    intro bi b i
    unfold maxElemIdxAux
    split
    · next h =>
      obtain ⟨h1, h2⟩ := ih i y (i + 1)
      exact ⟨h1.trans h.le, by
        intro z hz
        rcases List.mem_cons.mp hz with rfl | hz
        · exact h1
        · exact h2 z hz⟩
    · next h =>
      obtain ⟨h1, h2⟩ := ih bi b (i + 1)
      exact ⟨h1, by
        intro z hz
        rcases List.mem_cons.mp hz with rfl | hz
        · exact h1.trans (not_lt.mp h)
        · exact h2 z hz⟩

/-- The running best of the `max_element` fold is the initial best or a
visited tour. -/
theorem maxAux_mem :
    ∀ (l : List (Tour R)) (bi : ℕ) (b : Tour R) (i : ℕ),
      (maxElemIdxAux l bi b i).2 = b ∨ (maxElemIdxAux l bi b i).2 ∈ l := by
  intro l
  induction l with
  | nil => intro bi b i; exact Or.inl rfl
  | cons y ys ih =>
    intro bi b i
    unfold maxElemIdxAux
    split
    · rcases ih i y (i + 1) with h | h
      · exact Or.inr (by simp [h])
      · exact Or.inr (List.mem_cons_of_mem y h)
    · rcases ih bi b (i + 1) with h | h
      · exact Or.inl h
      · exact Or.inr (List.mem_cons_of_mem y h)

/-- The fittest tour of a nonempty list is no longer than the head. -/
theorem fittest_cons_le (x : Tour R) (xs : List (Tour R)) (t : Tour R)
    (h : fittest (x :: xs) = some t) : t.length ≤ x.length := by
  unfold fittest maxElemIdx at h
  simp only [Option.map_some'] at h
  have := (maxAux_le (R := R) xs 0 x 1).1
  rw [Option.some.injEq] at h
  exact h ▸ this

/-- The fittest tour of a list is no longer than every member. -/
theorem fittest_le_all (l : List (Tour R)) (t : Tour R)
    (h : fittest l = some t) : ∀ y ∈ l, t.length ≤ y.length := by
  cases l with
  | nil => simp [fittest, maxElemIdx] at h
  | cons x xs =>
    unfold fittest maxElemIdx at h
    simp only [Option.map_some', Option.some.injEq] at h
    intro y hy
    obtain ⟨h1, h2⟩ := maxAux_le (R := R) xs 0 x 1
    rcases List.mem_cons.mp hy with rfl | hy
    · rw [← h]; exact h1
    · rw [← h]; exact h2 y hy

/-- The fittest tour of a list is a member of the list. -/
theorem fittest_mem (l : List (Tour R)) (t : Tour R)
    (h : fittest l = some t) : t ∈ l := by
  cases l with
  | nil => simp [fittest, maxElemIdx] at h
  | cons x xs =>
    unfold fittest maxElemIdx at h
    simp only [Option.map_some', Option.some.injEq] at h
    rcases maxAux_mem (R := R) xs 0 x 1 with h2 | h2
    · rw [← h, h2]; exact List.mem_cons_self x xs
    · rw [← h]; exact List.mem_cons_of_mem x h2

end BasicLemmas

section EvolveLemmas

variable {R : Type} [LinearOrderedAddCommMonoid R]

/-- The crossover loop only ever appends: its argument child is a prefix of
its result. -/
theorem sexGo_extends (md : ℕ → ℕ → R) (msize : ℕ) (a b : List ℕ) :
    ∀ (fuel : ℕ) (child : List ℕ) (i j : ℕ),
      child <+: sexGo md msize a b child i j fuel := by
  intro fuel
  induction fuel with
  | zero => intro child i j; exact List.prefix_refl child
  | succ fuel ih =>
    intro child i j
    unfold sexGo
    split
    · dsimp only
      split
      · exact (List.prefix_append child _).trans (ih _ _ _)
      · split
        · exact (List.prefix_append child _).trans (ih _ _ _)
        · split
          · exact (List.prefix_append child _).trans (ih _ _ _)
          · exact (List.prefix_append child _).trans (ih _ _ _)
    · exact List.prefix_refl child

/-- Reading a list that extends `child ++ [x]` at the position right after
`child` yields `x`. -/
theorem getD_of_extend (child : List ℕ) (x : ℕ) (L : List ℕ)
    (h : child ++ [x] <+: L) : L.getD child.length 0 = x := by
  obtain ⟨rest, hr⟩ := h
  rw [← hr, List.append_assoc,
    List.getD_append_right child ([x] ++ rest) 0 child.length (le_refl _)]
  simp

/-- The child-generation loop appends exactly `cnt` children to its
accumulator. -/
theorem genChildren_spec (dist : City → City → R) (m : Map) (depth : ℕ) :
    ∀ (cnt : ℕ) (tours children : List (Tour R)) (g : Rng)
      (cs : List (Tour R)) (g2 : Rng),
      genChildren dist m depth cnt tours children g = some (cs, g2) →
      ∃ extra, cs = children ++ extra ∧ extra.length = cnt := by
  intro cnt
  induction cnt with
  | zero =>
    intro tours children g cs g2 h
    unfold genChildren at h
    simp only [Option.some.injEq, Prod.mk.injEq] at h
    exact ⟨[], by simp [h.1.symm]⟩
  | succ cnt ih =>
    intro tours children g cs g2 h
    unfold genChildren at h
    cases hA : findParent tours depth g with
    | none => rw [hA] at h; cases h
    | some rA =>
      obtain ⟨iA, wA, ts1, g1⟩ := rA
      rw [hA] at h
      dsimp only at h
      cases hB : findParent ts1 depth g1 with
      | none => rw [hB] at h; cases h
      | some rB =>
        obtain ⟨iB, wB, ts2, gB⟩ := rB
        rw [hB] at h
        dsimp only at h
        obtain ⟨extra2, hcs, hlen⟩ := ih ts2 _ gB cs g2 h
        refine ⟨(if (ts2.getD iA tourDefault).itinerary ≠ (ts2.getD iB tourDefault).itinerary
            then sex dist (ts2.getD iA tourDefault) (ts2.getD iB tourDefault) m
            else ts2.getD iA tourDefault) :: extra2, ?_, by simp [hlen]⟩
        rw [hcs]
        simp

/-- The mutation loop preserves the number of tours. -/
theorem mutateList_spec (dist : City → City → R) (m : Map) (p : ℚ) (fuel : ℕ) :
    ∀ (l : List (Tour R)) (g : Rng) (l2 : List (Tour R)) (g2 : Rng),
      mutateList dist m p fuel l g = some (l2, g2) → l2.length = l.length := by
  intro l
  induction l with
  | nil =>
    intro g l2 g2 h
    unfold mutateList at h
    simp only [Option.some.injEq, Prod.mk.injEq] at h
    simp [h.1.symm]
  | cons t ts ih =>
    intro g l2 g2 h
    unfold mutateList at h
    cases hm : Tour.mutate dist t p m g fuel with
    | none => rw [hm] at h; cases h
    | some r1 =>
      obtain ⟨mk1, t2, gm⟩ := r1
      rw [hm] at h
      dsimp only at h
      cases hrec : mutateList dist m p fuel ts gm with
      | none => rw [hrec] at h; cases h
      | some r2 =>
        obtain ⟨ts2, g3⟩ := r2
        rw [hrec] at h
        dsimp only at h
        simp only [Option.some.injEq, Prod.mk.injEq] at h
        rw [← h.1]
        simp [ih gm ts2 g3 hrec]

end EvolveLemmas

/-- C1.  For every Population, valid mutation probability and tournament
depth, a completing `evolve` call leaves the number of tours unchanged, and
the length of the fittest tour after the call is at most the length of the
fittest tour before the call. -/
theorem claim1_evolve_invariants (pop : Population ℝ) (p : ℚ) (depth fuel : ℕ)
    (g : Rng) (pop2 : Population ℝ) (g2 : Rng)
    (hne : pop.tours ≠ []) (hp0 : 0 ≤ p) (hp1 : p ≤ 1)
    (hd1 : 1 ≤ depth) (hd2 : depth ≤ pop.tours.length)
    (hev : evolve distanceBetweenCities pop p depth g fuel = some (pop2, g2)) :
    pop2.tours.length = pop.tours.length ∧
      ∀ t t2, fittest pop.tours = some t → fittest pop2.tours = some t2 →
        t2.length ≤ t.length := by
  unfold evolve at hev
  cases hf : fittest pop.tours with
  | none => rw [hf] at hev; cases hev
  | some best =>
    rw [hf] at hev
    dsimp only at hev
    cases hg : genChildren distanceBetweenCities pop.map depth
        (pop.tours.length - 1) pop.tours [best] g with
    | none => rw [hg] at hev; cases hev
    | some cg =>
      obtain ⟨children, g1⟩ := cg
      rw [hg] at hev
      dsimp only at hev
      cases children with
      | nil => cases hev
      | cons c0 rest =>
        obtain ⟨extra, hcs, hlen⟩ :=
          genChildren_spec distanceBetweenCities pop.map depth _ _ _ _ _ _ hg
        simp only [List.singleton_append, List.cons.injEq] at hcs
        dsimp only at hev
        cases hm : mutateList distanceBetweenCities pop.map p fuel rest g1 with
        | none => rw [hm] at hev; cases hev
        | some mr =>
          obtain ⟨rest2, g3⟩ := mr
          rw [hm] at hev
          dsimp only at hev
          simp only [Option.some.injEq, Prod.mk.injEq] at hev
          obtain ⟨hpop2, hg2⟩ := hev
          have hlen2 : rest2.length = rest.length :=
            mutateList_spec distanceBetweenCities pop.map p fuel rest g1 rest2 g3 hm
          have hpos : 1 ≤ pop.tours.length := by
            cases hpt : pop.tours with
            | nil => exact absurd hpt hne
            | cons u us => simp [hpt]
          constructor
          · rw [← hpop2]
            simp only [List.length_cons]
            rw [hlen2, hcs.2, hlen]
            omega
          · intro t t2 hft hft2
            rw [Option.some.injEq] at hft
            rw [← hpop2] at hft2
            have := fittest_cons_le c0 rest2 t2 hft2
            rw [hcs.1] at this
            rw [← hft]
            exact this


/-- C8.  For every nonempty tour list and every random-stream state,
tournament selection with `depth` equal to the number of tours succeeds and
selects a member of the collection whose length is minimal over the whole
collection. -/
theorem claim8_tournament_full_depth (tours : List (Tour ℝ)) (g : Rng)
    (hne : tours ≠ []) :
    ∃ idx sel rest g2,
      findParent tours tours.length g = some (idx, sel, rest, g2) ∧
        sel ∈ tours ∧ ∀ u ∈ tours, sel.length ≤ u.length := by
  unfold findParent
  have hperm := randomShuffle_perm tours g
  have hlen : (randomShuffle tours g).1.length = tours.length := hperm.length_eq
  have htake : (randomShuffle tours g).1.take tours.length = (randomShuffle tours g).1 := by
    rw [← hlen]
    exact List.take_length (randomShuffle tours g).1
  dsimp only
  rw [htake]
  cases hsl : (randomShuffle tours g).1 with
  | nil =>
    rw [hsl] at hperm
    exact absurd hperm.symm.eq_nil hne
  | cons x xs =>
    rw [hsl] at hperm
    refine ⟨(maxElemIdxAux xs 0 x 1).1, (maxElemIdxAux xs 0 x 1).2,
      (randomShuffle tours g).1, (randomShuffle tours g).2, by simp [maxElemIdx, hsl], ?_, ?_⟩
    · rcases maxAux_mem (R := ℝ) xs 0 x 1 with h2 | h2
      · exact hperm.mem_iff.mp (by rw [h2]; exact List.mem_cons_self x xs)
      · exact hperm.mem_iff.mp (List.mem_cons_of_mem x h2)
    · intro u hu
      have hu2 : u ∈ x :: xs := hperm.mem_iff.mpr hu
      obtain ⟨h1, h2⟩ := maxAux_le (R := ℝ) xs 0 x 1
      rcases List.mem_cons.mp hu2 with rfl | hu3
      · exact h1
      · exact h2 u hu3

/-- Witness for C8: tournament selection over a concrete one-tour
population. -/
theorem claim8_witness :
    ([tour1] : List (Tour ℝ)) ≠ [] ∧
    ∃ idx sel rest g2,
      findParent [tour1] ([tour1] : List (Tour ℝ)).length rng0 = some (idx, sel, rest, g2) ∧
        sel ∈ [tour1] ∧ ∀ u ∈ [tour1], sel.length ≤ u.length :=
  ⟨List.cons_ne_nil _ _,
    claim8_tournament_full_depth [tour1] rng0 (List.cons_ne_nil _ _)⟩


/-- C4.  The first tournament of an evolve iteration selects `tourB`, but
after the second tournament's in-place shuffle the reference returned by the
first call denotes `tourA`: selecting the second parent does change which
tour the first selected parent denotes, because `findParent` mutates the
collection the returned reference points into.  The child is therefore not
built from the first tournament's winner. -/
theorem claim4_reference_bug :
    ∃ iA wA ts1 g1 iB wB ts2 g2,
      findParent [tourA, tourB] 1 rng0 = some (iA, wA, ts1, g1) ∧
        findParent ts1 1 g1 = some (iB, wB, ts2, g2) ∧
        wA.itinerary = [0, 2, 1] ∧
        (ts2.getD iA tourDefault).itinerary = [0, 1, 2] ∧
        (ts2.getD iA tourDefault).itinerary ≠ wA.itinerary := by
  refine ⟨0, tourB, [tourB, tourA], ⟨rng0.stream, 1⟩, 0, tourA, [tourA, tourB],
    ⟨rng0.stream, 2⟩, rfl, rfl, rfl, rfl, by decide⟩


/-- C3 (counterexample).  With the all-zero random stream, `rand()` yields
`0`, so `randomDouble(0,1) = 0` is not strictly greater than `p = 0`, and
`mutate(tour, 0.0, map)` performs a swap: the itinerary changes from
`[0,1,2,3]` to `[0,2,1,3]` and the kind `0` is returned instead of the
no-mutation sentinel `-1`. -/
theorem claim3_counterexample :
    Option.map (fun r => (r.1, r.2.1.itinerary))
        (Tour.mutate distanceBetweenCities tourC 0 map4 rng0 1) =
      some (0, [0, 2, 1, 3]) ∧ ([0, 2, 1, 3] : List ℕ) ≠ [0, 1, 2, 3] := by
  refine ⟨?_, by decide⟩
  have hd : ¬ ((0 : ℚ) < (randomDouble 0 1 rng0).1) := by
    norm_num [randomDouble, rand, rng0, RANDMAX]
  unfold Tour.mutate
  dsimp only
  rw [if_neg hd]
  norm_num [randomIndex, randomDouble, rand, rng0, RANDMAX, tourC, Tour.ofItinerary,
    mutateLoop, listSwap, List.set, List.get]

/-- A mutate call with `p = 0` whose probability draw consumes a nonzero
`rand()` value takes the no-op branch: it returns the sentinel `-1` and the
unchanged tour, and only advances the stream. -/
theorem mutate_noop_of_draw_pos {R : Type} [LinearOrderedAddCommMonoid R]
    (dist : City → City → R) (t : Tour R) (m : Map) (g : Rng) (fuel : ℕ)
    (h : g.stream g.pos % (RANDMAX + 1) ≠ 0) :
    Tour.mutate dist t 0 m g fuel = some (-1, t, ⟨g.stream, g.pos + 1⟩) := by
  unfold Tour.mutate randomDouble rand
  dsimp only
  rw [if_pos]
  have hq : (0 : ℚ) < ((g.stream g.pos % (RANDMAX + 1) : ℕ) : ℚ) := by
    exact_mod_cast Nat.pos_of_ne_zero h
  have hr : (0 : ℚ) < (RANDMAX : ℚ) := by norm_num [RANDMAX]
  calc (0 : ℚ) < ((g.stream g.pos % (RANDMAX + 1) : ℕ) : ℚ) / (RANDMAX : ℚ) :=
        div_pos hq hr
    _ = ((g.stream g.pos % (RANDMAX + 1) : ℕ) : ℚ) / (RANDMAX : ℚ) * (1 - 0) + 0 := by ring

/-- C3 (amended).  Whenever the `rand()` draw consumed by the probability
check is nonzero — which is every case except the single stream value `0` —
`mutate(tour, 0.0, map)` is a no-op: it returns the sentinel `-1`, the tour
(itinerary and cached length) is unchanged, and only the stream advances. -/
theorem claim3_amended (t : Tour ℝ) (m : Map) (g : Rng) (fuel : ℕ)
    (h : g.stream g.pos % (RANDMAX + 1) ≠ 0) :
    Tour.mutate distanceBetweenCities t 0 m g fuel =
      some (-1, t, ⟨g.stream, g.pos + 1⟩) :=
  mutate_noop_of_draw_pos distanceBetweenCities t m g fuel h


/-- Witness for the amended C3: a concrete no-op mutate call. -/
theorem claim3_witness :
    rng1.stream rng1.pos % (RANDMAX + 1) ≠ 0 ∧
    Tour.mutate distanceBetweenCities tour1 0 map1 rng1 0 =
      some (-1, tour1, ⟨rng1.stream, rng1.pos + 1⟩) :=
  ⟨by decide, claim3_amended tour1 map1 rng1 0 (by decide)⟩

/-- In a `1 × 1` box every random city is `(0, 0)`, so the rejection-sampling
loop can never collect two distinct cities: from any state holding at most
that one city it runs forever (returns `none` for every fuel). -/
theorem mapBuild_one_one_stuck :
    ∀ (fuel : ℕ) (cities : List City) (g : Rng),
      (cities = [] ∨ cities = [⟨0, 0⟩]) → mapBuild 1 1 2 cities g fuel = none := by
  intro fuel
  induction fuel with
  | zero => intro cities g _; rfl
  | succ fuel ih =>
    intro cities g hc
    unfold mapBuild
    rcases hc with rfl | rfl
    · simp only [List.length_nil, if_pos (by norm_num : (0 : ℕ) < 2)]
      simpa [City.random, rand, Nat.mod_one] using ih [⟨0, 0⟩] _ (Or.inr rfl)
    · simp only [List.length_cons, List.length_nil, if_pos (by norm_num : (1 : ℕ) < 2)]
      simpa [City.random, rand, Nat.mod_one] using ih [⟨0, 0⟩] _ (Or.inr rfl)

/-- C5.  Constructing a `Map` with `n = 2` cities in a `1 × 1` bounding box
(`n > width * height`) never reports an error and never terminates: for every
random stream and every iteration bound the constructor loop is still
running.  The source has no fail-fast guard at all. -/
theorem claim5_map_loop (fuel : ℕ) (g : Rng) :
    mapBuild 1 1 2 [] g fuel = none :=
  mapBuild_one_one_stuck fuel [] g (Or.inl rfl)

/-- Witness for C1: a concrete evolve call on a one-tour population
satisfying every hypothesis. -/
theorem claim1_witness :
    (pop1.tours ≠ [] ∧ (0 : ℚ) ≤ 0 ∧ (0 : ℚ) ≤ 1 ∧ 1 ≤ 1 ∧
      1 ≤ pop1.tours.length ∧
      evolve distanceBetweenCities pop1 0 1 rng0 0 = some (pop1, rng0)) ∧
    (pop1.tours.length = pop1.tours.length ∧
      ∀ t t2, fittest pop1.tours = some t → fittest pop1.tours = some t2 →
        t2.length ≤ t.length) :=
  ⟨⟨by simp [pop1], le_refl 0, by norm_num, le_refl 1, by simp [pop1], rfl⟩,
    claim1_evolve_invariants pop1 0 1 0 rng0 pop1 rng0
      (by simp [pop1]) (le_refl 0) (by norm_num) (le_refl 1)
      (by simp [pop1]) rfl⟩

section SexLemmas

variable {R : Type} [LinearOrderedAddCommMonoid R]

/-- Every position strictly below `mm` holds an entry of `a.take mm`. -/
theorem getD_mem_take (a : List ℕ) (k mm : ℕ) (hk : k < mm) (hm : mm ≤ a.length) :
    a.getD k 0 ∈ a.take mm := by
  have hkl : k < a.length := lt_of_lt_of_le hk hm
  have hkt : k < (a.take mm).length := by simp [hk, hkl]
  have hg : (a.take mm).get ⟨k, hkt⟩ = a.get ⟨k, hkl⟩ := by
    simp only [List.get_eq_getElem]
    exact List.getElem_take ..
  have hd : a.getD k 0 = a.get ⟨k, hkl⟩ := by
    simp only [List.get_eq_getElem]
    exact List.getD_eq_getElem a 0 hkl
  rw [hd, ← hg]
  exact List.get_mem (a.take mm) k hkt

/-- In a duplicate-free list, the entry at position `mm` does not occur among
the first `mm` entries. -/
theorem getD_not_mem_take (a : List ℕ) (ha : a.Nodup) (mm : ℕ) (hm : mm < a.length) :
    a.getD mm 0 ∉ a.take mm := by
  intro hmem
  rw [List.getD_eq_getElem a 0 hm] at hmem
  obtain ⟨k, hk, hke⟩ := List.getElem_of_mem hmem
  have hkm : k < mm := by
    have := hk
    simp only [List.length_take] at this
    omega
  have hkl : k < a.length := by omega
  have hg : a.get ⟨k, hkl⟩ = a.get ⟨mm, hm⟩ := by
    simp only [List.get_eq_getElem]
    rw [← hke]
    exact (List.getElem_take ..).symm
  have := (List.Nodup.getElem_inj_iff ha).mp
    (by simpa only [List.get_eq_getElem] using hg)
  omega

/-- When the child is the prefix `a.take mm` of a duplicate-free parent `a`
and the cursor starts at or below `mm`, the crossover scan stops exactly at
`mm`. -/
theorem nextFree_take_self (a : List ℕ) (ha : a.Nodup) (mm i : ℕ)
    (him : i ≤ mm) (hmn : mm < a.length) :
    nextFree (a.take mm) a i = mm := by
  have h1 : nextFree (a.take mm) a i ≤ mm :=
    nextFree_le_of_missing _ _ i mm him hmn (getD_not_mem_take a ha mm hmn)
  rcases Nat.lt_or_ge (nextFree (a.take mm) a i) mm with h2 | h2
  · exfalso
    have hlt : nextFree (a.take mm) a i < a.length := by omega
    exact nextFree_stop (a.take mm) a i hlt
      (getD_mem_take a _ mm h2 (le_of_lt hmn))
  · omega

/-- When both parents of the crossover are the same duplicate-free list and
the child is the prefix of length `mm ≥ 1`, the loop reconstructs the parent
itself: both cursors always agree on the next candidate, the tie sends it
through the `b` branch, and the appended city extends the prefix. -/
theorem sexGo_self (md : ℕ → ℕ → R) (a : List ℕ) (ha : a.Nodup) :
    ∀ (fuel mm i j : ℕ), 1 ≤ mm → mm ≤ a.length → i ≤ mm → j ≤ mm →
      a.length ≤ mm + fuel →
      sexGo md a.length a a (a.take mm) i j fuel = a := by
  intro fuel
  induction fuel with
  | zero =>
    intro mm i j _ h2 _ _ h5
    have hmm : mm = a.length := by omega
    unfold sexGo
    rw [hmm, List.take_length]
  | succ fuel ih =>
    intro mm i j h1 h2 h3 h4 h5
    rcases Nat.lt_or_ge mm a.length with hlt | hge
    · have hlen : (a.take mm).length = mm := by
        simp [List.length_take]
        omega
      unfold sexGo
      rw [if_pos (by rw [hlen]; exact hlt)]
      dsimp only
      rw [nextFree_take_self a ha mm i h3 hlt, nextFree_take_self a ha mm j h4 hlt]
      rw [if_neg (by omega : ¬ mm = a.length)]
      rw [if_neg (by omega : ¬ mm = a.length)]
      rw [if_neg (lt_irrefl _)]
      have htk : a.take mm ++ [a.getD mm 0] = a.take (mm + 1) := by
        rw [List.getD_eq_getElem a 0 hlt, List.take_succ]
        simp [List.getElem?_eq_getElem hlt]
      rw [htk]
      exact ih (mm + 1) mm (mm + 1) (by omega) hlt (by omega) (le_refl _) (by omega)
    · have hmm : mm = a.length := le_antisymm h2 hge
      unfold sexGo
      rw [if_neg (by rw [hmm, List.take_length]; exact lt_irrefl _)]
      rw [hmm, List.take_length]

end SexLemmas

/-- C7.  For every tour over a map whose itinerary is a permutation of
`0..n-1` beginning with the fixed start city `0`, crossing the tour with
itself reproduces its itinerary exactly. -/
theorem claim7_self_crossover (a : Tour ℝ) (m : Map)
    (hp : a.itinerary.Perm (List.range m.size)) (h0 : a.itinerary.headD 0 = 0)
    (hn : 0 < m.size) :
    (sex distanceBetweenCities a a m).itinerary = a.itinerary := by
  have hlen : a.itinerary.length = m.size := by
    rw [hp.length_eq, List.length_range]
  have hnd : a.itinerary.Nodup := hp.symm.nodup (List.nodup_range m.size)
  have hne : a.itinerary ≠ [] := by
    intro h
    rw [h] at hlen
    simp at hlen
    omega
  have htake1 : a.itinerary.take 1 = [0] := by
    cases hit : a.itinerary with
    | nil => exact absurd hit hne
    | cons x rest =>
      rw [hit] at h0
      simp only [List.headD_cons] at h0
      simp [h0]
  show (sexGo (Map.distance distanceBetweenCities m) m.size a.itinerary a.itinerary
    [0] 1 1 m.size) = a.itinerary
  rw [← htake1, ← hlen]
  exact sexGo_self _ a.itinerary hnd a.itinerary.length 1 1 1 (le_refl 1)
    (by omega) (le_refl 1) (le_refl 1) (by omega)

/-- Witness for C7: a concrete self-crossover over the unit-square map. -/
theorem claim7_witness :
    (tourC.itinerary.Perm (List.range map4.size) ∧ tourC.itinerary.headD 0 = 0 ∧
      0 < map4.size) ∧
    (sex distanceBetweenCities tourC tourC map4).itinerary = tourC.itinerary :=
  ⟨⟨by decide, by decide, by decide⟩,
    claim7_self_crossover tourC map4 (by decide) (by decide) (by decide)⟩

section InvLemmas

variable {R : Type} [LinearOrderedAddCommMonoid R]

/-- While the child is still missing some city of a parent that is a
permutation of `0..n-1`, the crossover scan over that parent stops strictly
inside it. -/
theorem nextFree_lt_of_inv (n : ℕ) (par child : List ℕ) (i : ℕ)
    (hp : par.Perm (List.range n)) (hnd : child.Nodup)
    (hsub : ∀ x ∈ child, x < n) (hlen : child.length < n)
    (hcov : ∀ k, k < i → par.getD k 0 ∈ child) (hi : i ≤ par.length) :
    nextFree child par i < par.length := by
  have hmiss : ∃ x, x ∈ List.range n ∧ x ∉ child := by
    by_contra hall
    push_neg at hall
    have hsub2 : List.range n ⊆ child := fun x hx => hall x hx
    have hle := ((List.nodup_range n).subperm hsub2).length_le
    simp only [List.length_range] at hle
    omega
  obtain ⟨x, hxr, hxc⟩ := hmiss
  have hxp : x ∈ par := hp.mem_iff.mpr hxr
  obtain ⟨k, hk, hke⟩ := List.getElem_of_mem hxp
  have hgd : par.getD k 0 = x := by rw [List.getD_eq_getElem par 0 hk, hke]
  have hik : i ≤ k := by
    by_contra hik
    push_neg at hik
    exact hxc (hgd ▸ hcov k hik)
  have := nextFree_le_of_missing child par i k hik hk (by rw [hgd]; exact hxc)
  omega

/-- A full child satisfying the crossover invariant is a permutation of
`0..n-1`. -/
theorem inv_perm_of_full (n : ℕ) (a b child : List ℕ) (i j : ℕ)
    (inv : sexInv n a b child i j) (h : n ≤ child.length) :
    child.Perm (List.range n) := by
  obtain ⟨-, hnd, hsub, -⟩ := inv
  have hsub2 : child ⊆ List.range n := fun x hx => List.mem_range.mpr (hsub x hx)
  exact (hnd.subperm hsub2).perm_of_length_le (by simpa using h)

/-- The crossover invariant is symmetric in the two parents. -/
theorem sexInv_swap (n : ℕ) (a b child : List ℕ) (i j : ℕ) :
    sexInv n a b child i j → sexInv n b a child j i := by
  rintro ⟨h1, h2, h3, h4, h5, h6, h7⟩
  exact ⟨h1, h2, h3, h5, h4, h7, h6⟩

/-- Appending parent `a`'s next unused candidate preserves the crossover
invariant, with `a`'s cursor advanced past the appended position and `b`'s
cursor advanced to its scan result. -/
theorem sexInv_step (n : ℕ) (a b child : List ℕ) (i j : ℕ)
    (ha : a.Perm (List.range n))
    (inv : sexInv n a b child i j)
    (hia : nextFree child a i < a.length) :
    sexInv n a b (child ++ [a.getD (nextFree child a i) 0])
      (nextFree child a i + 1) (nextFree child b j) := by
  obtain ⟨h1, h2, h3, h4, h5, h6, h7⟩ := inv
  have hmem : a.getD (nextFree child a i) 0 ∈ a := by
    rw [List.getD_eq_getElem a 0 hia]
    exact List.getElem_mem hia
  have hlt : a.getD (nextFree child a i) 0 < n :=
    List.mem_range.mp (ha.mem_iff.mp hmem)
  have hnotin : a.getD (nextFree child a i) 0 ∉ child := nextFree_stop child a i hia
  refine ⟨by simp, ?_, ?_, by omega, nextFree_le child b j h5, ?_, ?_⟩
  · rw [List.nodup_append]
    refine ⟨h2, List.nodup_singleton _, ?_⟩
    rw [List.disjoint_singleton]
    exact hnotin
  · intro x hx
    rcases List.mem_append.mp hx with hx | hx
    · exact h3 x hx
    · simp only [List.mem_singleton] at hx
      rw [hx]
      exact hlt
  · intro k hk
    rcases Nat.lt_or_ge k i with hki | hki
    · exact List.mem_append_left _ (h6 k hki)
    · rcases Nat.lt_or_ge k (nextFree child a i) with hk2 | hk2
      · exact List.mem_append_left _ (nextFree_skipped child a i k hki hk2)
      · have hke : k = nextFree child a i := by omega
        rw [hke]
        exact List.mem_append_right _ (by simp)
  · intro k hk
    rcases Nat.lt_or_ge k j with hkj | hkj
    · exact List.mem_append_left _ (h7 k hkj)
    · exact List.mem_append_left _ (nextFree_skipped child b j k hkj hk)

/-- The crossover invariant holds at the loop entry: the child seeded with
the fixed start city `0`, both cursors at `1`. -/
theorem sexInv_init (n : ℕ) (a b : List ℕ)
    (ha : a.Perm (List.range n)) (hb : b.Perm (List.range n))
    (ha0 : a.headD 0 = 0) (hb0 : b.headD 0 = 0) (hn : 0 < n) :
    sexInv n a b [0] 1 1 := by
  have hla : a.length = n := by rw [ha.length_eq, List.length_range]
  have hlb : b.length = n := by rw [hb.length_eq, List.length_range]
  have hga : a.getD 0 0 = a.headD 0 := by cases a <;> rfl
  have hgb : b.getD 0 0 = b.headD 0 := by cases b <;> rfl
  refine ⟨by simp, List.nodup_singleton 0, ?_, by omega, by omega, ?_, ?_⟩
  · intro x hx
    simp only [List.mem_singleton] at hx
    omega
  · intro k hk
    have hk0 : k = 0 := by omega
    rw [hk0, hga, ha0]
    simp
  · intro k hk
    have hk0 : k = 0 := by omega
    rw [hk0, hgb, hb0]
    simp

/-- Under the tour invariants, every reachable crossover state has both scans
stopping strictly inside their parents, and the loop result is a permutation
of `0..n-1`. -/
theorem sexGo_perm_of_inv (md : ℕ → ℕ → R) (n : ℕ) (a b : List ℕ)
    (ha : a.Perm (List.range n)) (hb : b.Perm (List.range n)) :
    ∀ (fuel : ℕ) (child : List ℕ) (i j : ℕ),
      sexInv n a b child i j → n ≤ child.length + fuel →
      (sexGo md n a b child i j fuel).Perm (List.range n) := by
  intro fuel
  induction fuel with
  | zero =>
    intro child i j inv hf
    unfold sexGo
    exact inv_perm_of_full n a b child i j inv (by omega)
  | succ fuel ih =>
    intro child i j inv hf
    unfold sexGo
    split
    · next hlen =>
      dsimp only
      have hia : nextFree child a i < a.length :=
        nextFree_lt_of_inv n a child i ha inv.2.1 inv.2.2.1 hlen
          inv.2.2.2.2.2.1 inv.2.2.2.1
      have hjb : nextFree child b j < b.length :=
        nextFree_lt_of_inv n b child j hb inv.2.1 inv.2.2.1 hlen
          inv.2.2.2.2.2.2 inv.2.2.2.2.1
      rw [if_neg (by omega), if_neg (by omega)]
      have stepA := sexInv_step n a b child i j ha inv hia
      have stepB : sexInv n a b (child ++ [b.getD (nextFree child b j) 0])
          (nextFree child a i) (nextFree child b j + 1) :=
        sexInv_swap n b a _ _ _
          (sexInv_step n b a child j i hb (sexInv_swap n a b child i j inv) hjb)
      split
      · exact ih _ _ _ stepA (by simp; omega)
      · exact ih _ _ _ stepB (by simp; omega)
    · next hlen =>
      exact inv_perm_of_full n a b child i j inv (by omega)

/-- Under the tour invariants, the checked crossover loop never hits a
parent-exhausted branch or an out-of-bounds read: it succeeds and agrees with
the unchecked loop. -/
theorem sexGoChecked_eq_of_inv (md : ℕ → ℕ → R) (n : ℕ) (a b : List ℕ)
    (ha : a.Perm (List.range n)) (hb : b.Perm (List.range n)) :
    ∀ (fuel : ℕ) (child : List ℕ) (i j : ℕ),
      sexInv n a b child i j →
      sexGoChecked md n a b child i j fuel = some (sexGo md n a b child i j fuel) := by
  intro fuel
  induction fuel with
  | zero => intro child i j _; rfl
  | succ fuel ih =>
    intro child i j inv
    unfold sexGoChecked sexGo
    by_cases hlen : child.length < n
    · rw [if_pos hlen, if_pos hlen]
      dsimp only
      have hia : nextFree child a i < a.length :=
        nextFree_lt_of_inv n a child i ha inv.2.1 inv.2.2.1 hlen
          inv.2.2.2.2.2.1 inv.2.2.2.1
      have hjb : nextFree child b j < b.length :=
        nextFree_lt_of_inv n b child j hb inv.2.1 inv.2.2.1 hlen
          inv.2.2.2.2.2.2 inv.2.2.2.2.1
      rw [if_neg (by omega : ¬ nextFree child a i = a.length),
        if_neg (by omega : ¬ nextFree child b j = b.length)]
      rw [if_pos ⟨hia, hjb⟩]
      have stepA := sexInv_step n a b child i j ha inv hia
      have stepB : sexInv n a b (child ++ [b.getD (nextFree child b j) 0])
          (nextFree child a i) (nextFree child b j + 1) :=
        sexInv_swap n b a _ _ _
          (sexInv_step n b a child j i hb (sexInv_swap n a b child i j inv) hjb)
      by_cases hc : md (child.getLastD 0) (a.getD (nextFree child a i) 0) <
          md (child.getLastD 0) (b.getD (nextFree child b j) 0)
      · rw [if_pos hc, if_pos hc]
        exact ih _ _ _ stepA
      · rw [if_neg hc, if_neg hc]
        exact ih _ _ _ stepB
    · rw [if_neg hlen, if_neg hlen]

end InvLemmas

/-- C6.  For any two parent tours over the same map, each a permutation of
`0..n-1` starting at the fixed city `0`, the itinerary of their crossover is
a permutation of `0..n-1`: every city appears exactly once in the child. -/
theorem claim6_crossover_perm (a b : Tour ℝ) (m : Map)
    (ha : a.itinerary.Perm (List.range m.size))
    (hb : b.itinerary.Perm (List.range m.size))
    (ha0 : a.itinerary.headD 0 = 0) (hb0 : b.itinerary.headD 0 = 0)
    (hn : 0 < m.size) :
    (sex distanceBetweenCities a b m).itinerary.Perm (List.range m.size) := by
  show (sexGo (Map.distance distanceBetweenCities m) m.size a.itinerary b.itinerary
    [0] 1 1 m.size).Perm (List.range m.size)
  exact sexGo_perm_of_inv _ m.size a.itinerary b.itinerary ha hb m.size [0] 1 1
    (sexInv_init m.size a.itinerary b.itinerary ha hb ha0 hb0 hn) (by simp)

/-- Witness for C6: a concrete crossover of two distinct parent tours over
the unit-square map. -/
theorem claim6_witness :
    (tourD.itinerary.Perm (List.range map4.size) ∧
      tourE.itinerary.Perm (List.range map4.size) ∧
      tourD.itinerary.headD 0 = 0 ∧ tourE.itinerary.headD 0 = 0 ∧
      0 < map4.size) ∧
    (sex distanceBetweenCities tourD tourE map4).itinerary.Perm (List.range map4.size) :=
  ⟨⟨by decide, by decide, by decide, by decide, by decide⟩,
    claim6_crossover_perm tourD tourE map4 (by decide) (by decide) (by decide)
      (by decide) (by decide)⟩

/-- C10.  Under the tour invariants — both parents permutations of `0..n-1`
with the fixed first city `0` — every cursor-advance scan of the crossover
halts at a not-yet-used city strictly before the end of its parent, so the
parent-exhausted branches are never taken and no parent is ever indexed at or
past its size: the checked loop, which fails on any such access, succeeds and
agrees with the actual loop. -/
theorem claim10_no_exhaustion (a b : Tour ℝ) (m : Map)
    (ha : a.itinerary.Perm (List.range m.size))
    (hb : b.itinerary.Perm (List.range m.size))
    (ha0 : a.itinerary.headD 0 = 0) (hb0 : b.itinerary.headD 0 = 0)
    (hn : 0 < m.size) :
    sexGoChecked (Map.distance distanceBetweenCities m) m.size a.itinerary
        b.itinerary [0] 1 1 m.size =
      some (sexGo (Map.distance distanceBetweenCities m) m.size a.itinerary
        b.itinerary [0] 1 1 m.size) :=
  sexGoChecked_eq_of_inv _ m.size a.itinerary b.itinerary ha hb m.size [0] 1 1
    (sexInv_init m.size a.itinerary b.itinerary ha hb ha0 hb0 hn)

/-- Witness for C10: the checked crossover loop succeeds on two concrete
parent tours over the unit-square map. -/
theorem claim10_witness :
    (tourD.itinerary.Perm (List.range map4.size) ∧
      tourE.itinerary.Perm (List.range map4.size) ∧
      tourD.itinerary.headD 0 = 0 ∧ tourE.itinerary.headD 0 = 0 ∧
      0 < map4.size) ∧
    sexGoChecked (Map.distance distanceBetweenCities map4) map4.size
        tourD.itinerary tourE.itinerary [0] 1 1 map4.size =
      some (sexGo (Map.distance distanceBetweenCities map4) map4.size
        tourD.itinerary tourE.itinerary [0] 1 1 map4.size) :=
  ⟨⟨by decide, by decide, by decide, by decide, by decide⟩,
    claim10_no_exhaustion tourD tourE map4 (by decide) (by decide) (by decide)
      (by decide) (by decide)⟩

section StepLemmas

variable {R : Type} [LinearOrderedAddCommMonoid R]

/-- When neither parent is exhausted and `a`'s candidate is strictly nearer
to the child's last city, the crossover step appends `a`'s candidate: it is
the entry at position `child.length` of the loop's final result. -/
theorem sexGo_step_a (md : ℕ → ℕ → R) (msize : ℕ) (a b child : List ℕ)
    (i j fuel : ℕ) (hsz : child.length < msize)
    (hi : nextFree child a i < a.length) (hj : nextFree child b j < b.length)
    (hlt : md (child.getLastD 0) (a.getD (nextFree child a i) 0) <
      md (child.getLastD 0) (b.getD (nextFree child b j) 0)) :
    (sexGo md msize a b child i j (fuel + 1)).getD child.length 0 =
      a.getD (nextFree child a i) 0 := by
  have hstep : sexGo md msize a b child i j (fuel + 1) =
      sexGo md msize a b (child ++ [a.getD (nextFree child a i) 0])
        (nextFree child a i + 1) (nextFree child b j) fuel := by
    conv_lhs => rw [sexGo]
    rw [if_pos hsz]
    dsimp only
    rw [if_neg (by omega : ¬ nextFree child a i = a.length),
      if_neg (by omega : ¬ nextFree child b j = b.length), if_pos hlt]
  rw [hstep]
  exact getD_of_extend child _ _ (sexGo_extends md msize a b fuel _ _ _)

/-- When neither parent is exhausted and `b`'s candidate is at least as near
to the child's last city as `a`'s — in particular on an exact tie — the
crossover step appends `b`'s candidate. -/
theorem sexGo_step_b (md : ℕ → ℕ → R) (msize : ℕ) (a b child : List ℕ)
    (i j fuel : ℕ) (hsz : child.length < msize)
    (hi : nextFree child a i < a.length) (hj : nextFree child b j < b.length)
    (hle : ¬ (md (child.getLastD 0) (a.getD (nextFree child a i) 0) <
      md (child.getLastD 0) (b.getD (nextFree child b j) 0))) :
    (sexGo md msize a b child i j (fuel + 1)).getD child.length 0 =
      b.getD (nextFree child b j) 0 := by
  have hstep : sexGo md msize a b child i j (fuel + 1) =
      sexGo md msize a b (child ++ [b.getD (nextFree child b j) 0])
        (nextFree child a i) (nextFree child b j + 1) fuel := by
    conv_lhs => rw [sexGo]
    rw [if_pos hsz]
    dsimp only
    rw [if_neg (by omega : ¬ nextFree child a i = a.length),
      if_neg (by omega : ¬ nextFree child b j = b.length), if_neg hle]
  rw [hstep]
  exact getD_of_extend child _ _ (sexGo_extends md msize a b fuel _ _ _)

end StepLemmas

/-- C2 (amended).  At every crossover step where neither parent is
exhausted, the child appends `a`'s next unused candidate when it is strictly
closer to the child's last-added city than `b`'s, and `b`'s candidate when it
is at least as close as `a`'s: exact ties are broken in favour of parent
`b`'s candidate, not parent `a`'s. -/
theorem claim2_amended (m : Map) (a b child : List ℕ) (i j fuel : ℕ)
    (hsz : child.length < m.size)
    (hi : nextFree child a i < a.length) (hj : nextFree child b j < b.length) :
    (Map.distance distanceBetweenCities m (child.getLastD 0)
        (a.getD (nextFree child a i) 0) <
      Map.distance distanceBetweenCities m (child.getLastD 0)
        (b.getD (nextFree child b j) 0) →
      (sexGo (Map.distance distanceBetweenCities m) m.size a b child i j
        (fuel + 1)).getD child.length 0 = a.getD (nextFree child a i) 0) ∧
    (Map.distance distanceBetweenCities m (child.getLastD 0)
        (b.getD (nextFree child b j) 0) ≤
      Map.distance distanceBetweenCities m (child.getLastD 0)
        (a.getD (nextFree child a i) 0) →
      (sexGo (Map.distance distanceBetweenCities m) m.size a b child i j
        (fuel + 1)).getD child.length 0 = b.getD (nextFree child b j) 0) :=
  ⟨fun hlt => sexGo_step_a _ m.size a b child i j fuel hsz hi hj hlt,
    fun hle => sexGo_step_b _ m.size a b child i j fuel hsz hi hj (not_lt.mpr hle)⟩

/-- Witness for the amended C2: a concrete non-exhausted crossover step over
the unit-square map. -/
theorem claim2_witness :
    (([0] : List ℕ).length < map4.size ∧
      nextFree [0] [0, 1, 3, 2] 1 < ([0, 1, 3, 2] : List ℕ).length ∧
      nextFree [0] [0, 2, 3, 1] 1 < ([0, 2, 3, 1] : List ℕ).length) ∧
    ((Map.distance distanceBetweenCities map4 (([0] : List ℕ).getLastD 0)
        ([0, 1, 3, 2].getD (nextFree [0] [0, 1, 3, 2] 1) 0) <
      Map.distance distanceBetweenCities map4 (([0] : List ℕ).getLastD 0)
        ([0, 2, 3, 1].getD (nextFree [0] [0, 2, 3, 1] 1) 0) →
      (sexGo (Map.distance distanceBetweenCities map4) map4.size [0, 1, 3, 2]
        [0, 2, 3, 1] [0] 1 1 (3 + 1)).getD ([0] : List ℕ).length 0 =
        [0, 1, 3, 2].getD (nextFree [0] [0, 1, 3, 2] 1) 0) ∧
    (Map.distance distanceBetweenCities map4 (([0] : List ℕ).getLastD 0)
        ([0, 2, 3, 1].getD (nextFree [0] [0, 2, 3, 1] 1) 0) ≤
      Map.distance distanceBetweenCities map4 (([0] : List ℕ).getLastD 0)
        ([0, 1, 3, 2].getD (nextFree [0] [0, 1, 3, 2] 1) 0) →
      (sexGo (Map.distance distanceBetweenCities map4) map4.size [0, 1, 3, 2]
        [0, 2, 3, 1] [0] 1 1 (3 + 1)).getD ([0] : List ℕ).length 0 =
        [0, 2, 3, 1].getD (nextFree [0] [0, 2, 3, 1] 1) 0)) :=
  ⟨⟨by decide, by decide, by decide⟩,
    claim2_amended map4 [0, 1, 3, 2] [0, 2, 3, 1] [0] 1 1 3
      (by decide) (by decide) (by decide)⟩

/-- C2 (counterexample).  On the unit-square map with parents
`a = [0,1,3,2]` and `b = [0,2,3,1]`, the first crossover step has candidates
city `1` (from `a`) and city `2` (from `b`), both at distance `1` from the
last-added city `0` — exactly equidistant — yet the city appended at position
`1` of the child is `2`, parent `b`'s candidate, not parent `a`'s candidate
`1` as the claim states. -/
theorem claim2_counterexample :
    Map.distance distanceBetweenCities map4 0 1 =
      Map.distance distanceBetweenCities map4 0 2 ∧
    nextFree [0] [0, 1, 3, 2] 1 = 1 ∧ ([0, 1, 3, 2] : List ℕ).getD 1 0 = 1 ∧
    nextFree [0] [0, 2, 3, 1] 1 = 1 ∧ ([0, 2, 3, 1] : List ℕ).getD 1 0 = 2 ∧
    (sexGo (Map.distance distanceBetweenCities map4) map4.size [0, 1, 3, 2]
      [0, 2, 3, 1] [0] 1 1 4).getD 1 0 = 2 ∧ (2 : ℕ) ≠ 1 := by
  have hnn : dist2 ⟨0, 0⟩ ⟨1, 0⟩ = dist2 ⟨0, 0⟩ ⟨0, 1⟩ := by decide
  have hcast : ((dist2 ⟨0, 0⟩ ⟨1, 0⟩ : ℕ) : ℝ) = ((dist2 ⟨0, 0⟩ ⟨0, 1⟩ : ℕ) : ℝ) :=
    congrArg (fun n : ℕ => ((n : ℕ) : ℝ)) hnn
  have hdist : Map.distance distanceBetweenCities map4 0 1 =
      Map.distance distanceBetweenCities map4 0 2 := by
    show Real.sqrt (dist2 ⟨0, 0⟩ ⟨1, 0⟩) = Real.sqrt (dist2 ⟨0, 0⟩ ⟨0, 1⟩)
    exact congrArg Real.sqrt hcast
  have hnfa : nextFree [0] [0, 1, 3, 2] 1 = 1 := by decide
  have hnfb : nextFree [0] [0, 2, 3, 1] 1 = 1 := by decide
  refine ⟨hdist, hnfa, by decide, hnfb, by decide, ?_, by decide⟩
  have happ := sexGo_step_b (Map.distance distanceBetweenCities map4) map4.size
    [0, 1, 3, 2] [0, 2, 3, 1] [0] 1 1 3 (by decide) (by decide) (by decide) ?_
  · rw [hnfb] at happ
    exact happ
  · rw [hnfa, hnfb]
    show ¬ (Map.distance distanceBetweenCities map4 0 1 <
      Map.distance distanceBetweenCities map4 0 2)
    rw [hdist]
    exact lt_irrefl _

/-- C9.  After each core operation — construction from an explicit itinerary,
random construction, crossover, and any completing mutate call on a tour
whose cache was consistent — the cached length equals the closed-cycle length
recomputed from the current itinerary. -/
theorem claim9_length_cache :
    (∀ (it : List ℕ) (m : Map),
      cacheOK distanceBetweenCities (Tour.ofItinerary distanceBetweenCities it m) m) ∧
    (∀ (m : Map) (g : Rng),
      cacheOK distanceBetweenCities (Tour.random distanceBetweenCities m g).1 m) ∧
    (∀ (a b : Tour ℝ) (m : Map),
      cacheOK distanceBetweenCities (sex distanceBetweenCities a b m) m) ∧
    (∀ (t : Tour ℝ) (p : ℚ) (m : Map) (g : Rng) (fuel : ℕ) (r : ℤ × Tour ℝ × Rng),
      cacheOK distanceBetweenCities t m →
      Tour.mutate distanceBetweenCities t p m g fuel = some r →
      cacheOK distanceBetweenCities r.2.1 m) := by
  refine ⟨fun it m => rfl, ?_, fun a b m => rfl, ?_⟩
  · intro m g
    unfold Tour.random
    split
    · exact rfl
    · exact rfl
  · intro t p m g fuel r hok heq
    unfold Tour.mutate at heq
    dsimp only at heq
    split at heq
    · simp only [Option.some.injEq] at heq
      rw [← heq]
      exact hok
    · split at heq
      · cases heq
      · simp only [Option.some.injEq] at heq
        rw [← heq]
        exact rfl

/-- Witness for C9: the mutate clause applied to a concrete tour with a
consistent cache and a concrete completing (no-op) mutate call. -/
theorem claim9_witness :
    (cacheOK distanceBetweenCities tourC map4 ∧
      Tour.mutate distanceBetweenCities tourC 0 map4 rng1 0 =
        some (-1, tourC, ⟨rng1.stream, rng1.pos + 1⟩)) ∧
    cacheOK distanceBetweenCities
      ((-1 : ℤ), tourC, (⟨rng1.stream, rng1.pos + 1⟩ : Rng)).2.1 map4 :=
  ⟨⟨rfl, mutate_noop_of_draw_pos distanceBetweenCities tourC map4 rng1 0 (by decide)⟩,
    claim9_length_cache.2.2.2 tourC 0 map4 rng1 0
      ((-1 : ℤ), tourC, (⟨rng1.stream, rng1.pos + 1⟩ : Rng)) rfl
      (mutate_noop_of_draw_pos distanceBetweenCities tourC map4 rng1 0 (by decide))⟩

end GA
